import Mathlib

/-!
Shallow embedding of `morph.py`, a bidirectional codec between
mainframe-style fixed-width field encodings (EBCDIC cp037 text, zoned
decimal, packed decimal, big-endian binary, hex, bit) and decimal strings.

Byte buffers are modelled as `List Nat` (each entry a byte value), Python
strings as Lean `String`/`List Char`.  Fallible library calls
(`int(...)`, `bytearray.fromhex`, `str.encode('cp037')`,
`struct.pack`) are modelled with `Option`/`Except`; the `print` +
`exit()` branch of the source is modelled by a dedicated `exited`
error outcome.
-/

deriving instance DecidableEq for Except

namespace Morph

/-- Python `chr.lower()` restricted to ASCII letters, which is all the
format-tag dispatch in the source ever compares against. -/
def pyLowerChar (c : Char) : Char :=
  if 65 ≤ c.toNat ∧ c.toNat ≤ 90 then Char.ofNat (c.toNat + 32) else c

/-- Python `str.lower()`. -/
def pyLower (s : String) : String := ⟨s.data.map pyLowerChar⟩

/-- Clamp a Python slice index (possibly negative) to `0 .. n`. -/
def pyIdx (n : Nat) (i : Int) : Nat :=
  if i < 0 then (i + n).toNat else min i.toNat n

/-- Python `l[:i]` for a possibly negative `i`. -/
def pyTake {α : Type} (l : List α) (i : Int) : List α :=
  l.take (pyIdx l.length i)

/-- Python `l[i:]` for a possibly negative `i`. -/
def pyDrop {α : Type} (l : List α) (i : Int) : List α :=
  l.drop (pyIdx l.length i)

/-- Python `l[a:b]` for possibly negative bounds. -/
def pySlice {α : Type} (l : List α) (a b : Int) : List α :=
  (l.take (pyIdx l.length b)).drop (pyIdx l.length a)

/-- Python `str.zfill`: left-pad with `0` to the requested width, keeping a
leading sign character in place. -/
def pyZfill (cs : List Char) (k : Nat) : List Char :=
  match cs with
  | [] => List.replicate k '0'
  | c :: rest =>
      if c = '+' ∨ c = '-' then
        c :: (List.replicate (k - cs.length) '0' ++ rest)
      else
        List.replicate (k - cs.length) '0' ++ cs

/-- The characters `str.isspace` recognises in the Latin-1 range, which is
all that can arise from decoding cp037 bytes. -/
def isPySpace (c : Char) : Bool :=
  c.toNat = 9 ∨ c.toNat = 10 ∨ c.toNat = 11 ∨ c.toNat = 12 ∨ c.toNat = 13 ∨
  c.toNat = 28 ∨ c.toNat = 29 ∨ c.toNat = 30 ∨ c.toNat = 31 ∨ c.toNat = 32 ∨
  c.toNat = 133 ∨ c.toNat = 160

/-- Python `str.rstrip()`: remove trailing whitespace. -/
def pyRstrip (cs : List Char) : List Char :=
  (cs.reverse.dropWhile isPySpace).reverse

/-- Python string `<=`: lexicographic comparison by code point. -/
def pyStrLe : List Char → List Char → Bool
  | [], _ => true
  | _ :: _, [] => false
  | a :: as, b :: bs =>
      if a.toNat < b.toNat then true
      else if a.toNat = b.toNat then pyStrLe as bs
      else false

/-- The null character, written `\x00` in the source. -/
def nullChar : Char := Char.ofNat 0

/-- First index of a character in a list, used for table lookups. -/
def charIdx? (c : Char) : List Char → Option Nat
  | [] => none
  | d :: ds => if d = c then some 0 else (charIdx? c ds).map (fun i => i + 1)

/-- The ASCII decimal digits. -/
def decChars : List Char := ("0123456789").data

/-- The lowercase hexadecimal digits, in value order. -/
def lowHexChars : List Char := ("0123456789abcdef").data

/-- Value of an ASCII decimal digit character, `none` otherwise. -/
def decDigitVal? (c : Char) : Option Nat := charIdx? c decChars

/-- Value of a hexadecimal digit character (either case), `none` otherwise. -/
def hexCharVal? (c : Char) : Option Nat := charIdx? (pyLowerChar c) lowHexChars

/-- Lowercase hexadecimal digit character for a value below 16. -/
def hexDigitChar (n : Nat) : Char :=
  if n < 10 then Char.ofNat (48 + n) else Char.ofNat (87 + n)

/-- Python `bytes.hex()`: two lowercase hex digits per byte. -/
def bytesHex : List Nat → List Char
  | [] => []
  | b :: bs => hexDigitChar (b / 16) :: hexDigitChar (b % 16) :: bytesHex bs

/-- Digit values of a string of decimal digit characters. -/
def digitVals? : List Char → Option (List Nat)
  | [] => some []
  | c :: cs =>
      match decDigitVal? c, digitVals? cs with
      | some d, some ds => some (d :: ds)
      | _, _ => none

/-- Python `int(s)` on a pure digit string (no sign), `none` when `s` is
empty or contains a non-digit. -/
def digitsVal? (cs : List Char) : Option Nat :=
  if cs = [] then none
  else (digitVals? cs).map (fun ds => ds.foldl (fun a d => 10 * a + d) 0)

/-- Python `int(s)`: an optional sign followed by decimal digits. -/
def pyInt (s : List Char) : Option Int :=
  if s.head? = some '-' then
    (digitsVal? (s.drop 1)).map (fun n => -Int.ofNat n)
  else if s.head? = some '+' then
    (digitsVal? (s.drop 1)).map (fun n => Int.ofNat n)
  else
    (digitsVal? s).map (fun n => Int.ofNat n)

/-- Digit values of a string of hexadecimal digit characters. -/
def hexVals? : List Char → Option (List Nat)
  | [] => some []
  | c :: cs =>
      match hexCharVal? c, hexVals? cs with
      | some d, some ds => some (d :: ds)
      | _, _ => none

/-- Python `int("0x" + s, 0)`: hexadecimal parse, failing on the empty
string or a non-hex character. -/
def pyIntHex (cs : List Char) : Option Nat :=
  if cs = [] then none
  else (hexVals? cs).map (fun ds => ds.foldl (fun a d => 16 * a + d) 0)

/-- Python `bytearray.fromhex`: pairs of hex digits, failing on an odd
count or an invalid character. -/
def pyFromHex : List Char → Option (List Nat)
  | [] => some []
  | [_] => none
  | c1 :: c2 :: rest =>
      match hexCharVal? c1, hexCharVal? c2, pyFromHex rest with
      | some a, some b, some tail => some ((16 * a + b) :: tail)
      | _, _, _ => none

/-- Fuelled loop behind `natStr`, peeling decimal digits from the right. -/
def natStrAux : Nat → Nat → List Char → List Char
  | 0, _, acc => acc
  | fuel + 1, n, acc =>
      if n = 0 then acc
      else natStrAux fuel (n / 10) (Char.ofNat (48 + n % 10) :: acc)

/-- Python `str(n)` for a natural number. -/
def natStr (n : Nat) : List Char :=
  if n = 0 then ['0'] else natStrAux n n []

/-- Python `str(i)` for an integer. -/
def intStr (i : Int) : List Char :=
  if i < 0 then '-' :: natStr i.natAbs else natStr i.natAbs

/-- Fuelled loop behind `natBin`, peeling binary digits from the right. -/
def natBinAux : Nat → Nat → List Char → List Char
  | 0, _, acc => acc
  | fuel + 1, n, acc =>
      if n = 0 then acc
      else natBinAux fuel (n / 2) (Char.ofNat (48 + n % 2) :: acc)

/-- Python `bin(n).replace("0b", "")`. -/
def natBin (n : Nat) : List Char :=
  if n = 0 then ['0'] else natBinAux n n []

/-- Python `';'.join(s)`: the characters of `s` separated by semicolons. -/
def joinSemi : List Char → List Char
  | [] => []
  | [c] => [c]
  | c :: rest => c :: ';' :: joinSemi rest

/-- Big-endian value of a byte sequence. -/
def beVal (bs : List Nat) : Nat :=
  bs.foldl (fun a b => 256 * a + b) 0

/-- Big-endian bytes of `n`, `k` bytes wide (the shape `struct.pack(">Q", n)`
produces for in-range `n`). -/
def toBytesBE : Nat → Nat → List Nat
  | 0, _ => []
  | k + 1, n => toBytesBE k (n / 256) ++ [n % 256]

/-- The cp037 decoding table: Unicode code point of each of the 256 byte
values, as produced by the Python `cp037` codec. -/
def cp037Table : List Nat :=
  [0, 1, 2, 3, 156, 9, 134, 127, 151, 141, 142, 11, 12, 13, 14, 15,
   16, 17, 18, 19, 157, 133, 8, 135, 24, 25, 146, 143, 28, 29, 30, 31,
   128, 129, 130, 131, 132, 10, 23, 27, 136, 137, 138, 139, 140, 5, 6, 7,
   144, 145, 22, 147, 148, 149, 150, 4, 152, 153, 154, 155, 20, 21, 158, 26,
   32, 160, 226, 228, 224, 225, 227, 229, 231, 241, 162, 46, 60, 40, 43, 124,
   38, 233, 234, 235, 232, 237, 238, 239, 236, 223, 33, 36, 42, 41, 59, 172,
   45, 47, 194, 196, 192, 193, 195, 197, 199, 209, 166, 44, 37, 95, 62, 63,
   248, 201, 202, 203, 200, 205, 206, 207, 204, 96, 58, 35, 64, 39, 61, 34,
   216, 97, 98, 99, 100, 101, 102, 103, 104, 105, 171, 187, 240, 253, 254, 177,
   176, 106, 107, 108, 109, 110, 111, 112, 113, 114, 170, 186, 230, 184, 198, 164,
   181, 126, 115, 116, 117, 118, 119, 120, 121, 122, 161, 191, 208, 221, 222, 174,
   94, 163, 165, 183, 169, 167, 182, 188, 189, 190, 91, 93, 175, 168, 180, 215,
   123, 65, 66, 67, 68, 69, 70, 71, 72, 73, 173, 244, 246, 242, 243, 245,
   125, 74, 75, 76, 77, 78, 79, 80, 81, 82, 185, 251, 252, 249, 250, 255,
   92, 247, 83, 84, 85, 86, 87, 88, 89, 90, 178, 212, 214, 210, 211, 213,
   48, 49, 50, 51, 52, 53, 54, 55, 56, 57, 179, 219, 220, 217, 218, 159]

/-- Python `bytes([b]).decode('cp037')`: table lookup. -/
def cp037DecodeByte (b : Nat) : Char :=
  Char.ofNat (cp037Table.getD b 0)

/-- Python `bytes.decode('cp037')`. -/
def cp037Decode (bs : List Nat) : List Char :=
  bs.map cp037DecodeByte

/-- Python `str.encode('cp037')` of a single character: the byte whose
decoding is that character, i.e. the inverse of the decoding table. -/
def cp037EncodeChar (c : Char) : Option Nat :=
  (List.range 256).find? (fun b => cp037DecodeByte b = c)

/-- Python `str.encode('cp037')`, failing (`UnicodeEncodeError`) on a
character outside the codepage. -/
def cp037Encode : List Char → Option (List Nat)
  | [] => some []
  | c :: cs =>
      match cp037EncodeChar c, cp037Encode cs with
      | some b, some bs => some (b :: bs)
      | _, _ => none

/-- The module-level constant `HighestPositive = "7fffffffffffffffffff"`. -/
def HighestPositive : List Char :=
  ['7', 'f', 'f', 'f', 'f', 'f', 'f', 'f', 'f', 'f',
   'f', 'f', 'f', 'f', 'f', 'f', 'f', 'f', 'f', 'f']

/-- Outcomes of `unpack` other than returning a string.  `exited` models
the `print` + `exit()` branch for an unsupported format tag; the others
model Python exceptions escaping the call. -/
inductive UnpackErr where
  | exited
  | indexError
  | valueError
deriving DecidableEq, Repr

/-- Outcomes of `pack` other than returning a byte array, in the same
style as `UnpackErr`. -/
inductive PackErr where
  | exited
  | valueError
  | structError
  | encodeError
deriving DecidableEq, Repr

/-- The helper `add_dec_places(value, decimal_places)` of the source:
insert a decimal point `decimal_places` characters from the right, by
Python slicing (which silently clamps out-of-range indices). -/
def add_dec_places (value : List Char) (decimal_places : Int) : List Char :=
  if decimal_places = 0 then value
  else
    pyTake value ((value.length : Int) - decimal_places) ++
      '.' :: pyDrop value ((value.length : Int) - decimal_places)

/-- The decoder `unpack(bytes, type, dec_places, remove_lv, remove_spaces)`
of the source, branch for branch. -/
def unpack (bytes : List Nat) (type : String) (dec_places : Int)
    (remove_lv : Bool) (remove_spaces : Bool := false) :
    Except UnpackErr String :=
  let t := pyLower type
  if t = "ch" then
    .ok ⟨if remove_lv then
          pyRstrip ((cp037Decode bytes).filter (fun c => c ≠ nullChar))
        else cp037Decode bytes⟩
  else if t = "pd" ∨ t = "pd+" then
    let h := bytesHex bytes
    .ok ⟨add_dec_places
          ((if pyDrop h (-1) = ['d'] ∨ pyDrop h (-1) = ['b'] then ['-'] else []) ++
            pyTake h (-1)) dec_places⟩
  else if t = "bi" ∨
      (t = "bi+" ∧
        pyStrLe (bytesHex bytes) (pyTake HighestPositive ((bytes.length * 2 : Nat) : Int)) = true) then
    match pyIntHex (bytesHex bytes) with
    | some n => .ok ⟨add_dec_places (natStr n) dec_places⟩
    | none => .error .valueError
  else if t = "bi+" then
    match pyIntHex (bytesHex bytes), pyIntHex (List.replicate (bytes.length * 2) 'f') with
    | some n, some m => .ok ⟨add_dec_places (intStr ((n : Int) - (m : Int) - 1)) dec_places⟩
    | _, _ => .error .valueError
  else if t = "zd" then
    .ok ⟨add_dec_places (pyRstrip ((cp037Decode bytes).filter (fun c => c ≠ nullChar)))
          dec_places⟩
  else if t = "zd+" then
    let h := bytesHex bytes
    .ok ⟨add_dec_places
          ((if pySlice h (-2) (-1) = ['d'] then ['-'] else []) ++
            cp037Decode (pyTake bytes (-1)) ++ pyDrop h (-1)) dec_places⟩
  else if t = "hex" then
    .ok ⟨bytesHex bytes⟩
  else if t = "bit" then
    match bytes with
    | [] => .error .indexError
    | b :: _ => .ok ⟨joinSemi (pyZfill (natBin b) (bytes.length * 8))⟩
  else .error .exited

/-- The encoder `pack(value, type, dec_places, pad_length)` of the source,
branch for branch.  `dec_places` is accepted but never read, as in the
source. -/
def pack (value : String) (type : String) (dec_places : Int := 0)
    (pad_length : Nat := 0) : Except PackErr (List Nat) :=
  let t := pyLower type
  let v := value.data
  if t = "ch" then
    match cp037Encode v with
    | some result => .ok (result ++ List.replicate (pad_length - result.length) 0)
    | none => .error .encodeError
  else if t = "pd" ∨ t = "pd+" then
    let sign : Char := if v.head? = some '-' then 'd' else 'c'
    let v1 := (v.filter (fun c => c ≠ '.')).filter (fun c => c ≠ '-')
    let v2 := pyZfill v1 (pad_length * 2 - 1)
    match pyFromHex (v2 ++ [sign]) with
    | some packed => .ok packed
    | none => .error .valueError
  else if t = "bi" then
    match pyInt v with
    | some i =>
        if 0 ≤ i ∧ i < (2 : Int) ^ 64 then .ok (toBytesBE 8 i.toNat)
        else .error .structError
    | none => .error .valueError
  else if t = "bi+" then
    match pyInt v with
    | some i =>
        if -(2 : Int) ^ 63 ≤ i ∧ i < (2 : Int) ^ 63 then
          .ok (toBytesBE 8 (i % (2 : Int) ^ 64).toNat)
        else .error .structError
    | none => .error .valueError
  else if t = "zd" ∨ t = "zd+" then
    let sign : Char := if v.head? = some '-' then '}' else '{'
    let v1 := (v.filter (fun c => c ≠ '.')).filter (fun c => c ≠ '-')
    let v2 := pyZfill v1 (pad_length - 1) ++ [sign]
    match cp037Encode v2 with
    | some r => .ok r
    | none => .error .encodeError
  else if t = "hex" then
    match pyFromHex v with
    | some r => .ok r
    | none => .error .valueError
  else .error .exited

/-- Encode, then decode with the same descriptor (`remove_lv` set on
decode), the composition the round-trip properties speak about. -/
def reDecode (v : String) (t : String) (d : Int) (p : Nat) : Option String :=
  match pack v t d p with
  | .ok bs => (unpack bs t d true false).toOption
  | .error _ => none

/-! ### Finite facts about digit characters, checked by evaluation -/

set_option maxRecDepth 4096

theorem decDigit_ofNat : ∀ d, d < 10 → decDigitVal? (Char.ofNat (48 + d)) = some d := by
  decide

theorem hexChar_hexDigitChar : ∀ d, d < 16 → hexCharVal? (hexDigitChar d) = some d := by
  decide

theorem hexDigitChar_toNat :
    ∀ d, d < 16 → (hexDigitChar d).toNat = if d < 10 then 48 + d else 87 + d := by
  decide

theorem hexDigitChar_le : ∀ d, d < 16 → (hexDigitChar d).toNat ≤ 102 := by
  decide

theorem lowHex_spec :
    ∀ c ∈ lowHexChars,
      (hexCharVal? c).isSome ∧ hexDigitChar ((hexCharVal? c).getD 0) = c ∧
        (hexCharVal? c).getD 0 < 16 := by
  decide

theorem decChars_spec :
    ∀ c ∈ decChars,
      c ∈ lowHexChars ∧ c ≠ '-' ∧ c ≠ '+' ∧ c ≠ '.' ∧ (decDigitVal? c).isSome := by
  decide

theorem charIdx?_mem {c : Char} : ∀ {l : List Char} {i : Nat}, charIdx? c l = some i → c ∈ l := by
  intro l
  induction l with
  | nil => intro i h; simp [charIdx?] at h
  | cons d ds ih =>
      intro i h
      by_cases hd : d = c
      · exact hd ▸ List.mem_cons_self d ds
      · rw [charIdx?, if_neg hd] at h
        cases hidx : charIdx? c ds with
        | none => rw [hidx] at h; simp at h
        | some j => exact List.mem_cons_of_mem _ (ih hidx)

theorem decDigitVal?_isSome_mem {c : Char} (h : (decDigitVal? c).isSome) : c ∈ decChars := by
  cases hidx : decDigitVal? c with
  | none => rw [hidx] at h; simp at h
  | some i => exact charIdx?_mem (c := c) hidx

/-! ### Big-endian byte values -/

theorem beVal_foldl (bs : List Nat) :
    ∀ a, bs.foldl (fun x b => 256 * x + b) a = a * 256 ^ bs.length + beVal bs := by
  induction bs with
  | nil => intro a; simp [beVal]
  | cons b bs ih =>
      intro a
      have e1 : beVal (b :: bs) = List.foldl (fun x b => 256 * x + b) b bs := by
        show List.foldl _ (256 * 0 + b) bs = _
        norm_num
      show (bs.foldl _ (256 * a + b)) = _
      rw [ih (256 * a + b), e1, ih b, List.length_cons, pow_succ]
      ring

theorem beVal_cons (b : Nat) (bs : List Nat) :
    beVal (b :: bs) = b * 256 ^ bs.length + beVal bs := by
  show (bs.foldl _ (256 * 0 + b)) = _
  rw [beVal_foldl]
  simp

theorem beVal_lt (bs : List Nat) (h : ∀ b ∈ bs, b < 256) : beVal bs < 256 ^ bs.length := by
  induction bs with
  | nil => simp [beVal]
  | cons b bs ih =>
      rw [beVal_cons]
      have hb : b < 256 := h b (List.mem_cons_self _ _)
      have hrest : beVal bs < 256 ^ bs.length := ih (fun x hx => h x (List.mem_cons_of_mem _ hx))
      have : b * 256 ^ bs.length + beVal bs < (b + 1) * 256 ^ bs.length := by
        rw [Nat.succ_mul]; omega
      calc b * 256 ^ bs.length + beVal bs < (b + 1) * 256 ^ bs.length := this
        _ ≤ 256 * 256 ^ bs.length := Nat.mul_le_mul_right _ (by omega)
        _ = 256 ^ (b :: bs).length := by rw [List.length_cons, pow_succ]; ring

theorem toBytesBE_length (k : Nat) : ∀ n, (toBytesBE k n).length = k := by
  induction k with
  | zero => intro n; rfl
  | succ k ih => intro n; rw [toBytesBE, List.length_append, ih]; simp

theorem toBytesBE_lt (k : Nat) : ∀ n, ∀ b ∈ toBytesBE k n, b < 256 := by
  induction k with
  | zero => intro n b hb; simp [toBytesBE] at hb
  | succ k ih =>
      intro n b hb
      rw [toBytesBE, List.mem_append] at hb
      rcases hb with hb | hb
      · exact ih _ b hb
      · simp at hb; omega

theorem beVal_append_byte (bs : List Nat) (b : Nat) :
    beVal (bs ++ [b]) = 256 * beVal bs + b := by
  show List.foldl _ 0 (bs ++ [b]) = _
  rw [List.foldl_append]
  rfl

theorem beVal_toBytesBE (k : Nat) : ∀ n, beVal (toBytesBE k n) = n % 256 ^ k := by
  induction k with
  | zero => intro n; simp [toBytesBE, beVal, Nat.mod_one]
  | succ k ih =>
      intro n
      rw [toBytesBE, beVal_append_byte, ih, pow_succ', Nat.mod_mul]
      omega

/-! ### Hexadecimal rendering and parsing -/

theorem bytesHex_length (bs : List Nat) : (bytesHex bs).length = 2 * bs.length := by
  induction bs with
  | nil => rfl
  | cons b bs ih => rw [bytesHex]; simp only [List.length_cons, ih]; omega

theorem bytesHex_chars_le (bs : List Nat) (h : ∀ b ∈ bs, b < 256) :
    ∀ c ∈ bytesHex bs, c.toNat ≤ 102 := by
  induction bs with
  | nil => intro c hc; simp [bytesHex] at hc
  | cons b bs ih =>
      intro c hc
      have hb : b < 256 := h b (List.mem_cons_self _ _)
      rw [bytesHex] at hc
      rcases hc with _ | ⟨_, hc⟩
      · exact hexDigitChar_le (b / 16) (by omega)
      rcases hc with _ | ⟨_, hc⟩
      · exact hexDigitChar_le (b % 16) (by omega)
      · exact ih (fun x hx => h x (List.mem_cons_of_mem _ hx)) c hc

theorem hexVals?_bytesHex (bs : List Nat) (h : ∀ b ∈ bs, b < 256) :
    ∃ ds, hexVals? (bytesHex bs) = some ds ∧
      ∀ a, ds.foldl (fun x d => 16 * x + d) a = bs.foldl (fun x b => 256 * x + b) a := by
  induction bs with
  | nil => exact ⟨[], rfl, fun a => rfl⟩
  | cons b bs ih =>
      have hb : b < 256 := h b (List.mem_cons_self _ _)
      obtain ⟨ds, hds, hval⟩ := ih (fun x hx => h x (List.mem_cons_of_mem _ hx))
      refine ⟨b / 16 :: b % 16 :: ds, ?_, ?_⟩
      · rw [bytesHex, hexVals?, hexChar_hexDigitChar (b / 16) (by omega), hexVals?,
          hexChar_hexDigitChar (b % 16) (by omega), hds]
      · intro a
        rw [List.foldl_cons, List.foldl_cons, List.foldl_cons, hval]
        have : 16 * (16 * a + b / 16) + b % 16 = 256 * a + b := by omega
        rw [this]

theorem pyIntHex_bytesHex (bs : List Nat) (hne : bs ≠ []) (h : ∀ b ∈ bs, b < 256) :
    pyIntHex (bytesHex bs) = some (beVal bs) := by
  obtain ⟨ds, hds, hval⟩ := hexVals?_bytesHex bs h
  have hne2 : bytesHex bs ≠ [] := by
    cases bs with
    | nil => exact absurd rfl hne
    | cons b bs => rw [bytesHex]; simp
  rw [pyIntHex, if_neg hne2, hds]
  simp only [Option.map_some']
  rw [hval 0]
  rfl

theorem hexVals?_replicate_f (k : Nat) :
    hexVals? (List.replicate k 'f') = some (List.replicate k 15) := by
  induction k with
  | zero => rfl
  | succ k ih =>
      rw [List.replicate_succ, hexVals?]
      have : hexCharVal? 'f' = some 15 := by decide
      rw [this, ih, List.replicate_succ]

theorem foldl_replicate_15 (k : Nat) :
    ∀ a, (List.replicate k 15).foldl (fun x d => 16 * x + d) a = a * 16 ^ k + (16 ^ k - 1) := by
  induction k with
  | zero => intro a; simp
  | succ k ih =>
      intro a
      rw [List.replicate_succ, List.foldl_cons, ih]
      have h1 : (1 : Nat) ≤ 16 ^ k := Nat.one_le_pow _ _ (by omega)
      have h2 : (16 : Nat) ^ (k + 1) = 16 ^ k * 16 := by rw [pow_succ]
      rw [h2]
      ring_nf
      omega

theorem pyIntHex_replicate_f (k : Nat) (hk : k ≠ 0) :
    pyIntHex (List.replicate k 'f') = some (16 ^ k - 1) := by
  have hne : List.replicate k 'f' ≠ [] := by
    cases k with
    | zero => exact absurd rfl hk
    | succ k => simp
  rw [pyIntHex, if_neg hne, hexVals?_replicate_f]
  simp only [Option.map_some']
  rw [foldl_replicate_15]
  simp

theorem pyFromHex_bytesHex (bs : List Nat) (h : ∀ b ∈ bs, b < 256) :
    pyFromHex (bytesHex bs) = some bs := by
  induction bs with
  | nil => rfl
  | cons b bs ih =>
      have hb : b < 256 := h b (List.mem_cons_self _ _)
      rw [bytesHex, pyFromHex, hexChar_hexDigitChar (b / 16) (by omega),
        hexChar_hexDigitChar (b % 16) (by omega),
        ih (fun x hx => h x (List.mem_cons_of_mem _ hx))]
      show some ((16 * (b / 16) + b % 16) :: bs) = some (b :: bs)
      have : 16 * (b / 16) + b % 16 = b := by omega
      rw [this]

theorem pyFromHex_valid :
    ∀ cs : List Char, (∀ c ∈ cs, c ∈ lowHexChars) → cs.length % 2 = 0 →
      ∃ bs, pyFromHex cs = some bs ∧ bytesHex bs = cs ∧ (∀ b ∈ bs, b < 256) ∧
        bs.length * 2 = cs.length
  | [], _, _ => ⟨[], rfl, rfl, by simp, by simp⟩
  | [c], _, heven => by simp at heven
  | c1 :: c2 :: rest, hhex, heven => by
      have hc1 : c1 ∈ lowHexChars := hhex c1 (by simp)
      have hc2 : c2 ∈ lowHexChars := hhex c2 (by simp)
      have heven2 : rest.length % 2 = 0 := by
        simp only [List.length_cons] at heven; omega
      obtain ⟨bs, hbs, hhexbs, hlt, hlen⟩ :=
        pyFromHex_valid rest (fun c hc => hhex c (by simp [hc])) heven2
      obtain ⟨hs1, hr1, hlt1⟩ := lowHex_spec c1 hc1
      obtain ⟨hs2, hr2, hlt2⟩ := lowHex_spec c2 hc2
      obtain ⟨a, ha⟩ := Option.isSome_iff_exists.mp hs1
      obtain ⟨b, hb⟩ := Option.isSome_iff_exists.mp hs2
      rw [ha] at hr1 hlt1
      rw [hb] at hr2 hlt2
      simp only [Option.getD_some] at hr1 hr2 hlt1 hlt2
      refine ⟨(16 * a + b) :: bs, ?_, ?_, ?_, ?_⟩
      · rw [pyFromHex, ha, hb, hbs]
      · rw [bytesHex, hhexbs]
        have hda : (16 * a + b) / 16 = a := by omega
        have hdb : (16 * a + b) % 16 = b := by omega
        rw [hda, hdb, hr1, hr2]
      · intro x hx
        rcases hx with _ | ⟨_, hx⟩
        · omega
        · exact hlt x hx
      · simp only [List.length_cons]; omega

/-! ### Correctness of the decimal rendering `natStr` / `intStr` -/

theorem natStrAux_zero (fuel : Nat) (acc : List Char) : natStrAux fuel 0 acc = acc := by
  cases fuel <;> simp [natStrAux]

theorem natStrAux_append (n : Nat) :
    ∀ fuel acc, n ≤ fuel → natStrAux fuel n acc = natStrAux n n [] ++ acc := by
  induction n using Nat.strong_induction_on with
  | _ n ih =>
      intro fuel acc hle
      match n, fuel with
      | 0, fuel => rw [natStrAux_zero, natStrAux_zero]; rfl
      | m + 1, fuel + 1 =>
          rw [natStrAux, if_neg (by omega)]
          conv_rhs => rw [natStrAux, if_neg (by omega)]
          have hq : (m + 1) / 10 < m + 1 := by omega
          rw [ih ((m + 1) / 10) hq fuel _ (by omega), ih ((m + 1) / 10) hq m _ (by omega),
            List.append_assoc]
          rfl

theorem digitVals?_nil : digitVals? [] = some [] := rfl

theorem digitVals?_cons {c : Char} {d : Nat} {cs : List Char} {ds : List Nat}
    (hc : decDigitVal? c = some d) (hcs : digitVals? cs = some ds) :
    digitVals? (c :: cs) = some (d :: ds) := by
  rw [digitVals?, hc, hcs]

theorem digitVals?_append :
    ∀ {xs : List Char} {ds : List Nat} {ys : List Char} {es : List Nat},
      digitVals? xs = some ds → digitVals? ys = some es →
      digitVals? (xs ++ ys) = some (ds ++ es) := by
  intro xs
  induction xs with
  | nil =>
      intro ds ys es h1 h2
      simp only [digitVals?] at h1
      cases h1
      simpa using h2
  | cons c cs ih =>
      intro ds ys es h1 h2
      rw [digitVals?] at h1
      cases hdc : decDigitVal? c with
      | none => rw [hdc] at h1; simp at h1
      | some d =>
          cases hdcs : digitVals? cs with
          | none => rw [hdc, hdcs] at h1; simp at h1
          | some ds0 =>
              rw [hdc, hdcs] at h1
              cases h1
              rw [List.cons_append, digitVals?_cons hdc (ih hdcs h2)]
              rfl

theorem digitVals?_natStr (n : Nat) :
    ∃ ds, digitVals? (natStr n) = some ds ∧
      ds.foldl (fun a d => 10 * a + d) 0 = n ∧ natStr n ≠ [] := by
  induction n using Nat.strong_induction_on with
  | _ n ih =>
      match n with
      | 0 => exact ⟨[0], by decide, by decide, by decide⟩
      | m + 1 =>
          have hne : m + 1 ≠ 0 := by omega
          have hunfold : natStr (m + 1) = natStrAux (m + 1) (m + 1) [] := by
            rw [natStr, if_neg hne]
          have hstep : natStrAux (m + 1) (m + 1) [] =
              natStrAux m ((m + 1) / 10) [Char.ofNat (48 + (m + 1) % 10)] := by
            conv_lhs => rw [natStrAux, if_neg hne]
          have hdigit : decDigitVal? (Char.ofNat (48 + (m + 1) % 10)) = some ((m + 1) % 10) :=
            decDigit_ofNat _ (by omega)
          by_cases hq : (m + 1) / 10 = 0
          · have hone : natStr (m + 1) = [Char.ofNat (48 + (m + 1) % 10)] := by
              rw [hunfold, hstep, hq, natStrAux_zero]
            refine ⟨[(m + 1) % 10], ?_, ?_, ?_⟩
            · rw [hone, digitVals?_cons hdigit digitVals?_nil]
            · have : (m + 1) % 10 = m + 1 := by omega
              simp [this]
            · rw [hone]; simp
          · obtain ⟨ds, hds, hval, hne2⟩ := ih ((m + 1) / 10) (by omega)
            have hq2 : natStr ((m + 1) / 10) = natStrAux ((m + 1) / 10) ((m + 1) / 10) [] := by
              rw [natStr, if_neg hq]
            have hcat : natStr (m + 1) = natStr ((m + 1) / 10) ++ [Char.ofNat (48 + (m + 1) % 10)] := by
              rw [hunfold, hstep, natStrAux_append _ m _ (by omega), hq2]
            refine ⟨ds ++ [(m + 1) % 10], ?_, ?_, ?_⟩
            · rw [hcat, digitVals?_append hds (digitVals?_cons hdigit digitVals?_nil)]
            · rw [List.foldl_append, hval]
              show 10 * ((m + 1) / 10) + (m + 1) % 10 = m + 1
              omega
            · rw [hcat]; simp

theorem digitsVal?_natStr (n : Nat) : digitsVal? (natStr n) = some n := by
  obtain ⟨ds, hds, hval, hne⟩ := digitVals?_natStr n
  rw [digitsVal?, if_neg hne, hds, Option.map_some', hval]

theorem digitVals?_mem_decChars :
    ∀ {cs : List Char} {ds : List Nat}, digitVals? cs = some ds → ∀ c ∈ cs, c ∈ decChars := by
  intro cs
  induction cs with
  | nil => intro ds _ c hc; simp at hc
  | cons a as ih =>
      intro ds h c hc
      rw [digitVals?] at h
      cases hda : decDigitVal? a with
      | none => rw [hda] at h; simp at h
      | some d =>
          cases hdas : digitVals? as with
          | none => rw [hda, hdas] at h; simp at h
          | some ds0 =>
              rcases hc with _ | ⟨_, hc⟩
              · exact decDigitVal?_isSome_mem (by rw [hda]; rfl)
              · exact ih hdas c hc

theorem pyInt_digits (cs : List Char) (hne : cs ≠ []) (hmem : ∀ c ∈ cs, c ∈ decChars) :
    pyInt cs = (digitsVal? cs).map (fun n => Int.ofNat n) := by
  match cs, hne with
  | c :: rest, _ =>
      have hc := hmem c (List.mem_cons_self _ _)
      have h1 : c ≠ '-' := (decChars_spec c hc).2.1
      have h2 : c ≠ '+' := (decChars_spec c hc).2.2.1
      rw [pyInt, if_neg (by simp [h1]), if_neg (by simp [h2])]

theorem pyInt_natStr (n : Nat) : pyInt (natStr n) = some (Int.ofNat n) := by
  obtain ⟨ds, hds, _, hne⟩ := digitVals?_natStr n
  rw [pyInt_digits _ hne (digitVals?_mem_decChars hds), digitsVal?_natStr, Option.map_some']

theorem pyInt_intStr (i : Int) : pyInt (intStr i) = some i := by
  by_cases hi : i < 0
  · rw [intStr, if_pos hi, pyInt, if_pos (by simp), List.drop_succ_cons, List.drop_zero,
      digitsVal?_natStr i.natAbs, Option.map_some']
    show some (-((i.natAbs : Nat) : Int)) = some i
    congr 1
    omega
  · rw [intStr, if_neg hi, pyInt_natStr]
    show some (((i.natAbs : Nat) : Int)) = some i
    congr 1
    omega

theorem intStr_ofNat (n : Nat) : intStr (n : Int) = natStr n := by
  rw [intStr, if_neg (by omega)]
  congr 1

/-! ### The cp037 codepage -/

theorem cp037EncodeChar_decodeByte {c : Char} {b : Nat} (h : cp037EncodeChar c = some b) :
    cp037DecodeByte b = c := by
  have := List.find?_some h
  exact of_decide_eq_true this

theorem cp037Encode_spec :
    ∀ {cs : List Char} {bs : List Nat}, cp037Encode cs = some bs →
      cp037Decode bs = cs ∧ bs.length = cs.length := by
  intro cs
  induction cs with
  | nil =>
      intro bs h
      simp only [cp037Encode] at h
      cases h
      exact ⟨rfl, rfl⟩
  | cons c cs ih =>
      intro bs h
      rw [cp037Encode] at h
      cases hc : cp037EncodeChar c with
      | none => rw [hc] at h; simp at h
      | some b =>
          cases hcs : cp037Encode cs with
          | none => rw [hc, hcs] at h; simp at h
          | some bs0 =>
              rw [hc, hcs] at h
              cases h
              obtain ⟨hdec, hlen⟩ := ih hcs
              constructor
              · show cp037DecodeByte b :: cp037Decode bs0 = c :: cs
                rw [cp037EncodeChar_decodeByte hc, hdec]
              · simp [hlen]

theorem cp037Encode_isSome :
    ∀ {cs : List Char}, (∀ c ∈ cs, (cp037EncodeChar c).isSome) →
      ∃ bs, cp037Encode cs = some bs := by
  intro cs
  induction cs with
  | nil => intro _; exact ⟨[], rfl⟩
  | cons c cs ih =>
      intro h
      obtain ⟨b, hb⟩ := Option.isSome_iff_exists.mp (h c (List.mem_cons_self _ _))
      obtain ⟨bs, hbs⟩ := ih (fun x hx => h x (List.mem_cons_of_mem _ hx))
      exact ⟨b :: bs, by rw [cp037Encode, hb, hbs]⟩

/-! ### Python string helpers -/

theorem pyRstrip_eq_self {cs : List Char}
    (h : ∀ c, cs.getLast? = some c → isPySpace c = false) : pyRstrip cs = cs := by
  rcases List.eq_nil_or_concat cs with rfl | ⟨ys, a, rfl⟩
  · rfl
  · rw [List.concat_eq_append] at h ⊢
    have ha : isPySpace a = false := h a (by rw [List.getLast?_concat])
    rw [pyRstrip, List.reverse_append]
    simp only [List.reverse_cons, List.reverse_nil, List.nil_append, List.singleton_append]
    rw [List.dropWhile_cons]
    simp [ha]

theorem filter_eq_self_of_mem {p : Char → Bool} {cs : List Char}
    (h : ∀ c ∈ cs, p c = true) : cs.filter p = cs :=
  List.filter_eq_self.mpr h

theorem pyIdx_neg_one (n : Nat) (hn : 1 ≤ n) : pyIdx n (-1) = n - 1 := by
  rw [pyIdx, if_pos (by omega)]
  omega

theorem pyTake_concat {α : Type} (l : List α) (x : α) : pyTake (l ++ [x]) (-1) = l := by
  rw [pyTake, pyIdx_neg_one _ (by simp)]
  have : (l ++ [x]).length - 1 = l.length := by simp
  rw [this, List.take_left]

theorem pyDrop_concat {α : Type} (l : List α) (x : α) : pyDrop (l ++ [x]) (-1) = [x] := by
  rw [pyDrop, pyIdx_neg_one _ (by simp)]
  have : (l ++ [x]).length - 1 = l.length := by simp
  rw [this, List.drop_left]

theorem pyZfill_digits {c : Char} {rest : List Char} (hc : c ∈ decChars) (k : Nat) :
    pyZfill (c :: rest) k = List.replicate (k - (c :: rest).length) '0' ++ (c :: rest) := by
  rw [pyZfill, if_neg]
  rintro (h | h)
  · exact absurd h (decChars_spec c hc).2.2.1
  · exact absurd h (decChars_spec c hc).2.1

theorem digitVals?_replicate_zero (k : Nat) :
    digitVals? (List.replicate k '0') = some (List.replicate k 0) := by
  induction k with
  | zero => rfl
  | succ k ih =>
      rw [List.replicate_succ, List.replicate_succ]
      exact digitVals?_cons (by decide) ih

theorem foldl_replicate_zero (k : Nat) :
    (List.replicate k 0).foldl (fun a d => 10 * a + d) 0 = 0 := by
  induction k with
  | zero => rfl
  | succ k ih => rw [List.replicate_succ, List.foldl_cons]; simpa using ih

theorem digitsVal?_zfill (k : Nat) {cs : List Char} {v : Nat} (h : digitsVal? cs = some v) :
    digitsVal? (List.replicate k '0' ++ cs) = some v := by
  rw [digitsVal?] at h
  by_cases hne : cs = []
  · rw [if_pos hne] at h; simp at h
  · rw [if_neg hne] at h
    cases hds : digitVals? cs with
    | none => rw [hds] at h; simp at h
    | some ds =>
        rw [hds, Option.map_some'] at h
        cases h
        rw [digitsVal?, if_neg (by simp [hne]), digitVals?_append (digitVals?_replicate_zero k) hds,
          Option.map_some', List.foldl_append, foldl_replicate_zero]

/-! ### Lexicographic comparison against the `HighestPositive` prefix -/

theorem pyStrLe_replicate_f :
    ∀ (x : List Char) (k : Nat), (∀ c ∈ x, c.toNat ≤ 102) → x.length ≤ k →
      pyStrLe x (List.replicate k 'f') = true := by
  intro x
  induction x with
  | nil => intro k _ _; cases k <;> rfl
  | cons a as ih =>
      intro k hle hlen
      match k with
      | 0 => simp at hlen
      | k + 1 =>
          rw [List.replicate_succ, pyStrLe]
          have ha : a.toNat ≤ 102 := hle a (List.mem_cons_self _ _)
          have hf : ('f').toNat = 102 := by decide
          by_cases hlt : a.toNat < ('f').toNat
          · rw [if_pos hlt]
          · rw [if_neg hlt, if_pos (by omega)]
            exact ih k (fun c hc => hle c (List.mem_cons_of_mem _ hc)) (by simpa using hlen)

/-! ### Branch equations for the two dispatchers -/

theorem unpack_hex_eq (bs : List Nat) (d : Int) (r s : Bool) :
    unpack bs "hex" d r s = .ok ⟨bytesHex bs⟩ := rfl

theorem unpack_ch_eq (bs : List Nat) (d : Int) (s : Bool) :
    unpack bs "ch" d true s =
      .ok ⟨pyRstrip ((cp037Decode bs).filter (fun c => c ≠ nullChar))⟩ := rfl

theorem unpack_bi_eq (bs : List Nat) (d : Int) (r s : Bool) :
    unpack bs "bi" d r s =
      match pyIntHex (bytesHex bs) with
      | some n => .ok ⟨add_dec_places (natStr n) d⟩
      | none => .error .valueError := rfl

theorem unpack_pd_eq (bs : List Nat) (t : String) (d : Int) (r s : Bool)
    (ht : t = "pd" ∨ t = "pd+") :
    unpack bs t d r s =
      .ok ⟨add_dec_places
        ((if pyDrop (bytesHex bs) (-1) = ['d'] ∨ pyDrop (bytesHex bs) (-1) = ['b'] then ['-']
          else []) ++ pyTake (bytesHex bs) (-1)) d⟩ := by
  rcases ht with rfl | rfl <;> rfl

theorem unpack_biplus_eq (bs : List Nat) (d : Int) (r s : Bool) :
    unpack bs "bi+" d r s =
      (if pyStrLe (bytesHex bs) (pyTake HighestPositive ((bs.length * 2 : Nat) : Int)) = true then
        match pyIntHex (bytesHex bs) with
        | some n => .ok ⟨add_dec_places (natStr n) d⟩
        | none => .error .valueError
      else
        match pyIntHex (bytesHex bs), pyIntHex (List.replicate (bs.length * 2) 'f') with
        | some n, some m => .ok ⟨add_dec_places (intStr ((n : Int) - (m : Int) - 1)) d⟩
        | _, _ => .error .valueError) := by
  have hpl : pyLower "bi+" = "bi+" := by decide
  by_cases hc : pyStrLe (bytesHex bs) (pyTake HighestPositive ((bs.length * 2 : Nat) : Int)) = true
  · rw [if_pos hc]
    unfold unpack
    rw [hpl, if_neg (by decide), if_neg (by decide), if_pos (Or.inr ⟨rfl, hc⟩)]
  · rw [if_neg hc]
    unfold unpack
    rw [hpl, if_neg (by decide), if_neg (by decide),
      if_neg (by rintro (h | ⟨-, h⟩); exact absurd h (by decide); exact hc h),
      if_pos rfl]

theorem pack_ch_eq (value : String) (d : Int) (p : Nat) :
    pack value "ch" d p =
      match cp037Encode value.data with
      | some result => .ok (result ++ List.replicate (p - result.length) 0)
      | none => .error .encodeError := rfl

theorem pack_pd_eq (value : String) (t : String) (d : Int) (p : Nat)
    (ht : t = "pd" ∨ t = "pd+") :
    pack value t d p =
      (match pyFromHex
          (pyZfill ((value.data.filter (fun c => c ≠ '.')).filter (fun c => c ≠ '-'))
            (p * 2 - 1) ++
          [if value.data.head? = some '-' then 'd' else 'c']) with
       | some packed => .ok packed
       | none => .error .valueError) := by
  rcases ht with rfl | rfl <;> rfl

theorem pack_bi_eq (value : String) (d : Int) (p : Nat) :
    pack value "bi" d p =
      (match pyInt value.data with
       | some i =>
           if 0 ≤ i ∧ i < (2 : Int) ^ 64 then .ok (toBytesBE 8 i.toNat)
           else .error .structError
       | none => .error .valueError) := rfl

theorem pack_biplus_eq (value : String) (d : Int) (p : Nat) :
    pack value "bi+" d p =
      (match pyInt value.data with
       | some i =>
           if -(2 : Int) ^ 63 ≤ i ∧ i < (2 : Int) ^ 63 then
             .ok (toBytesBE 8 (i % (2 : Int) ^ 64).toNat)
           else .error .structError
       | none => .error .valueError) := rfl

theorem pack_hex_eq (value : String) (d : Int) (p : Nat) :
    pack value "hex" d p =
      (match pyFromHex value.data with
       | some r => .ok r
       | none => .error .valueError) := rfl

/-! ### The signed-binary decode threshold -/

theorem strLe_threshold (b0 : Nat) (rest : List Nat) (h0 : b0 < 256)
    (hrest : ∀ b ∈ rest, b < 256) (hn : rest.length + 1 ≤ 10) :
    pyStrLe (bytesHex (b0 :: rest))
        (pyTake HighestPositive (((b0 :: rest).length * 2 : Nat) : Int)) =
      decide (b0 < 128) := by
  have hHP : HighestPositive = '7' :: List.replicate 19 'f' := by decide
  have hHPlen : HighestPositive.length = 20 := by decide
  have hidx : pyIdx HighestPositive.length (((b0 :: rest).length * 2 : Nat) : Int) =
      2 * rest.length + 2 := by
    rw [hHPlen, pyIdx, if_neg (by omega)]
    simp only [List.length_cons, Int.toNat_ofNat]
    omega
  rw [pyTake, hidx, hHP]
  have htake : List.take (2 * rest.length + 2) ('7' :: List.replicate 19 'f') =
      '7' :: List.replicate (2 * rest.length + 1) 'f' := by
    rw [List.take_succ_cons, List.take_replicate, Nat.min_eq_left (by omega)]
  rw [htake]
  show pyStrLe (hexDigitChar (b0 / 16) :: hexDigitChar (b0 % 16) :: bytesHex rest) _ = _
  rw [pyStrLe]
  have h7 : ('7').toNat = 55 := by decide
  by_cases hb1 : b0 < 112
  · have hd : (hexDigitChar (b0 / 16)).toNat = 48 + b0 / 16 := by
      rw [hexDigitChar_toNat _ (by omega), if_pos (by omega)]
    rw [if_pos (by rw [hd, h7]; omega), decide_eq_true (by omega : b0 < 128)]
  · by_cases hb2 : b0 < 128
    · have hq : b0 / 16 = 7 := by omega
      have hd : hexDigitChar (b0 / 16) = '7' := by rw [hq]; decide
      rw [hd, if_neg (by omega), if_pos rfl,
        pyStrLe_replicate_f _ _ ?_ ?_, decide_eq_true hb2]
      · intro c hc
        rcases hc with _ | ⟨_, hc⟩
        · exact hexDigitChar_le (b0 % 16) (by omega)
        · exact bytesHex_chars_le rest hrest c hc
      · simp only [List.length_cons, bytesHex_length]
        omega
    · have hd : 55 < (hexDigitChar (b0 / 16)).toNat := by
        rw [hexDigitChar_toNat _ (by omega)]
        by_cases h10 : b0 / 16 < 10
        · rw [if_pos h10]; omega
        · rw [if_neg h10]; omega
      rw [if_neg (by omega), if_neg (by omega), decide_eq_false (by omega : ¬b0 < 128)]

theorem pow_256_eq (n : Nat) : (256 : Nat) ^ n = 2 ^ (8 * n) := by
  rw [pow_mul]
  norm_num

theorem pow_16_two_eq (n : Nat) : (16 : Nat) ^ (n * 2) = 2 ^ (8 * n) := by
  rw [Nat.mul_comm n 2, pow_mul]
  have : (16 : Nat) ^ 2 = 2 ^ 8 := by norm_num
  rw [this, ← pow_mul]

theorem unpack_biplus_spec (bs : List Nat) (d : Int) (r s : Bool) (hne : bs ≠ [])
    (hlen : bs.length ≤ 10) (hb : ∀ b ∈ bs, b < 256) :
    unpack bs "bi+" d r s =
      .ok ⟨add_dec_places
        (if 2 * beVal bs < 2 ^ (8 * bs.length) then natStr (beVal bs)
         else intStr ((beVal bs : Int) - ((2 : Nat) ^ (8 * bs.length) : Nat))) d⟩ := by
  match bs, hne with
  | b0 :: rest, _ =>
      have hb0 : b0 < 256 := hb b0 (List.mem_cons_self _ _)
      have hbr : ∀ b ∈ rest, b < 256 := fun x hx => hb x (List.mem_cons_of_mem _ hx)
      have hlen2 : rest.length + 1 ≤ 10 := by simpa using hlen
      have hval : beVal (b0 :: rest) = b0 * 256 ^ rest.length + beVal rest := beVal_cons b0 rest
      have hrlt : beVal rest < 256 ^ rest.length := beVal_lt rest hbr
      have hpow : (2 : Nat) ^ (8 * (b0 :: rest).length) = 256 * 256 ^ rest.length := by
        rw [← pow_256_eq, List.length_cons, pow_succ]
        ring
      have hIntHex : pyIntHex (bytesHex (b0 :: rest)) = some (beVal (b0 :: rest)) :=
        pyIntHex_bytesHex _ (by simp) hb
      rw [unpack_biplus_eq, strLe_threshold b0 rest hb0 hbr hlen2]
      by_cases hlt : b0 < 128
      · have hsmall : 2 * beVal (b0 :: rest) < 2 ^ (8 * (b0 :: rest).length) := by
          rw [hval, hpow]
          have h1 : 2 * b0 * 256 ^ rest.length ≤ 254 * 256 ^ rest.length :=
            Nat.mul_le_mul_right _ (by omega)
          nlinarith [hrlt, h1]
        rw [decide_eq_true hlt, if_pos rfl, hIntHex, if_pos hsmall]
      · have hbig : ¬(2 * beVal (b0 :: rest) < 2 ^ (8 * (b0 :: rest).length)) := by
          rw [hval, hpow]
          push_neg
          have h1 : 256 * 256 ^ rest.length ≤ 2 * b0 * 256 ^ rest.length :=
            Nat.mul_le_mul_right _ (by omega)
          nlinarith [h1]
        rw [decide_eq_false hlt, if_neg (by simp), hIntHex,
          pyIntHex_replicate_f _ (by simp), if_neg hbig]
        have h16 : (16 : Nat) ^ ((b0 :: rest).length * 2) = 2 ^ (8 * (b0 :: rest).length) :=
          pow_16_two_eq _
        have hone : 1 ≤ (16 : Nat) ^ ((b0 :: rest).length * 2) := Nat.one_le_pow _ _ (by omega)
        have harith : (beVal (b0 :: rest) : Int) -
            ((16 ^ ((b0 :: rest).length * 2) - 1 : Nat) : Int) - 1 =
            (beVal (b0 :: rest) : Int) - ((2 : Nat) ^ (8 * (b0 :: rest).length) : Nat) := by
          rw [h16] at hone ⊢
          omega
        show Except.ok (⟨add_dec_places (intStr ((beVal (b0 :: rest) : Int) -
          ((16 ^ ((b0 :: rest).length * 2) - 1 : Nat) : Int) - 1)) d⟩ : String) = _
        rw [harith]

/-! ### Further list and dispatch helpers -/

theorem add_dec_places_zero (x : List Char) : add_dec_places x 0 = x := rfl

theorem filter_idem {α : Type} (p : α → Bool) (l : List α) :
    (l.filter p).filter p = l.filter p := by
  induction l with
  | nil => rfl
  | cons a l ih =>
      by_cases ha : p a
      · rw [List.filter_cons, if_pos ha, List.filter_cons, if_pos ha, ih]
      · rw [List.filter_cons, if_neg ha, ih]

theorem head?_filter_dot (v : List Char) (h : v.head? ≠ some '.') :
    (v.filter (fun c => c ≠ '.')).head? = v.head? := by
  cases v with
  | nil => rfl
  | cons c rest =>
      have hc : c ≠ '.' := by
        intro hcc
        exact h (by rw [List.head?_cons, hcc])
      rw [List.filter_cons, if_pos (by simp [hc]), List.head?_cons, List.head?_cons]

theorem digitVals?_isSome (cs : List Char) (h : ∀ c ∈ cs, c ∈ decChars) :
    ∃ ds, digitVals? cs = some ds := by
  induction cs with
  | nil => exact ⟨[], rfl⟩
  | cons c cs ih =>
      obtain ⟨d, hd⟩ := Option.isSome_iff_exists.mp
        (decChars_spec c (h c (List.mem_cons_self _ _))).2.2.2.2
      obtain ⟨ds, hds⟩ := ih (fun x hx => h x (List.mem_cons_of_mem _ hx))
      exact ⟨d :: ds, digitVals?_cons hd hds⟩

theorem digitsVal?_isSome (cs : List Char) (hne : cs ≠ []) (h : ∀ c ∈ cs, c ∈ decChars) :
    ∃ v, digitsVal? cs = some v := by
  obtain ⟨ds, hds⟩ := digitVals?_isSome cs h
  exact ⟨ds.foldl (fun a d => 10 * a + d) 0, by rw [digitsVal?, if_neg hne, hds, Option.map_some']⟩

theorem pack_pd_lower_eq (value : String) (t : String) (d : Int) (p : Nat)
    (ht : pyLower t = "pd" ∨ pyLower t = "pd+") :
    pack value t d p =
      (match pyFromHex
          (pyZfill ((value.data.filter (fun c => c ≠ '.')).filter (fun c => c ≠ '-'))
            (p * 2 - 1) ++
          [if value.data.head? = some '-' then 'd' else 'c']) with
       | some packed => .ok packed
       | none => .error .valueError) := by
  unfold pack
  rcases ht with h | h <;> rw [h]
  · rw [if_neg (by decide), if_pos (Or.inl rfl)]
  · rw [if_neg (by decide), if_pos (Or.inr rfl)]

theorem pack_zd_lower_eq (value : String) (t : String) (d : Int) (p : Nat)
    (ht : pyLower t = "zd" ∨ pyLower t = "zd+") :
    pack value t d p =
      (match cp037Encode
          (pyZfill ((value.data.filter (fun c => c ≠ '.')).filter (fun c => c ≠ '-'))
            (p - 1) ++
          [if value.data.head? = some '-' then '}' else '{']) with
       | some r => .ok r
       | none => .error .encodeError) := by
  unfold pack
  rcases ht with h | h <;> rw [h]
  · rw [if_neg (by decide), if_neg (by decide), if_neg (by decide), if_neg (by decide),
      if_pos (Or.inl rfl)]
  · rw [if_neg (by decide), if_neg (by decide), if_neg (by decide), if_neg (by decide),
      if_pos (Or.inr rfl)]

/-! ### Round trips, format by format -/

theorem reDecode_eq_of_pack {v t : String} {d : Int} {p : Nat} {bs : List Nat}
    (h : pack v t d p = .ok bs) :
    reDecode v t d p = (unpack bs t d true false).toOption := by
  unfold reDecode
  rw [h]

theorem filter_ne_replicate (k : Nat) (a : Char) :
    (List.replicate k a).filter (fun c => c ≠ a) = [] := by
  induction k with
  | zero => rfl
  | succ k ih => rw [List.replicate_succ, List.filter_cons, if_neg (by simp), ih]

theorem hex_unpack_pack (bs : List Nat) (hb : ∀ b ∈ bs, b < 256) :
    ∃ s, unpack bs "hex" 0 false false = .ok s ∧ pack s "hex" 0 0 = .ok bs := by
  refine ⟨⟨bytesHex bs⟩, unpack_hex_eq bs 0 false false, ?_⟩
  rw [pack_hex_eq]
  show (match pyFromHex (bytesHex bs) with
        | some r => (Except.ok r : Except PackErr (List Nat))
        | none => .error .valueError) = .ok bs
  rw [pyFromHex_bytesHex bs hb]

theorem hex_pack_unpack (cs : List Char) (hhex : ∀ c ∈ cs, c ∈ lowHexChars)
    (heven : cs.length % 2 = 0) (d : Int) (p : Nat) :
    reDecode ⟨cs⟩ "hex" d p = some ⟨cs⟩ := by
  obtain ⟨bs, hbs, hhexbs, hlt, _⟩ := pyFromHex_valid cs hhex heven
  have hpack : pack ⟨cs⟩ "hex" d p = .ok bs := by
    rw [pack_hex_eq]
    show (match pyFromHex cs with
          | some r => (Except.ok r : Except PackErr (List Nat))
          | none => .error .valueError) = .ok bs
    rw [hbs]
  rw [reDecode_eq_of_pack hpack, unpack_hex_eq, hhexbs]
  rfl

theorem bi_pack_unpack (n : Nat) (hn : n < 2 ^ 64) (p : Nat) :
    reDecode ⟨natStr n⟩ "bi" 0 p = some ⟨natStr n⟩ := by
  have hrange : (0 : Int) ≤ Int.ofNat n ∧ Int.ofNat n < (2 : Int) ^ 64 := by
    constructor
    · show (0 : Int) ≤ (n : Nat)
      exact_mod_cast n.zero_le
    · show ((n : Nat) : Int) < (2 : Int) ^ 64
      exact_mod_cast hn
  have hpack : pack ⟨natStr n⟩ "bi" 0 p = .ok (toBytesBE 8 n) := by
    rw [pack_bi_eq]
    show (match pyInt (natStr n) with
          | some i =>
              if 0 ≤ i ∧ i < (2 : Int) ^ 64 then
                (Except.ok (toBytesBE 8 i.toNat) : Except PackErr (List Nat))
              else .error .structError
          | none => .error .valueError) = .ok (toBytesBE 8 n)
    rw [pyInt_natStr]
    show (if 0 ≤ Int.ofNat n ∧ Int.ofNat n < (2 : Int) ^ 64 then
            (Except.ok (toBytesBE 8 (Int.ofNat n).toNat) : Except PackErr (List Nat))
          else .error .structError) = .ok (toBytesBE 8 n)
    rw [if_pos hrange]
    rfl
  rw [reDecode_eq_of_pack hpack, unpack_bi_eq]
  have hlen8 : (toBytesBE 8 n).length = 8 := toBytesBE_length 8 n
  have hne : toBytesBE 8 n ≠ [] := by
    intro hcon
    rw [hcon] at hlen8
    simp at hlen8
  have hbeVal : beVal (toBytesBE 8 n) = n := by
    rw [beVal_toBytesBE]
    have h2e : (256 : Nat) ^ 8 = 2 ^ 64 := by norm_num
    rw [h2e, Nat.mod_eq_of_lt hn]
  rw [pyIntHex_bytesHex _ hne (toBytesBE_lt 8 n)]
  show some (⟨add_dec_places (natStr (beVal (toBytesBE 8 n))) 0⟩ : String) = some ⟨natStr n⟩
  rw [add_dec_places_zero, hbeVal]

theorem biplus_pack_unpack (i : Int) (h1 : -(2 : Int) ^ 63 ≤ i) (h2 : i < (2 : Int) ^ 63)
    (p : Nat) : reDecode ⟨intStr i⟩ "bi+" 0 p = some ⟨intStr i⟩ := by
  have p63 : (2 : Int) ^ 63 = 9223372036854775808 := by norm_num
  have p64 : (2 : Int) ^ 64 = 18446744073709551616 := by norm_num
  have p64n : (2 : Nat) ^ (8 * 8) = 18446744073709551616 := by norm_num
  have hpack : pack ⟨intStr i⟩ "bi+" 0 p = .ok (toBytesBE 8 (i % (2 : Int) ^ 64).toNat) := by
    rw [pack_biplus_eq]
    show (match pyInt (intStr i) with
          | some j =>
              if -(2 : Int) ^ 63 ≤ j ∧ j < (2 : Int) ^ 63 then
                (Except.ok (toBytesBE 8 (j % (2 : Int) ^ 64).toNat) : Except PackErr (List Nat))
              else .error .structError
          | none => .error .valueError) = .ok (toBytesBE 8 (i % (2 : Int) ^ 64).toNat)
    rw [pyInt_intStr]
    show (if -(2 : Int) ^ 63 ≤ i ∧ i < (2 : Int) ^ 63 then
            (Except.ok (toBytesBE 8 (i % (2 : Int) ^ 64).toNat) : Except PackErr (List Nat))
          else .error .structError) = _
    rw [if_pos ⟨h1, h2⟩]
  rw [reDecode_eq_of_pack hpack]
  have hlen8 : (toBytesBE 8 (i % (2 : Int) ^ 64).toNat).length = 8 := toBytesBE_length 8 _
  have hne : toBytesBE 8 (i % (2 : Int) ^ 64).toNat ≠ [] := by
    intro hcon
    rw [hcon] at hlen8
    simp at hlen8
  have hmlt : (i % (2 : Int) ^ 64).toNat < 2 ^ 64 := by
    have := Int.emod_lt_of_pos i (show (0 : Int) < 2 ^ 64 by positivity)
    have h64 : (2 : Nat) ^ 64 = 18446744073709551616 := by norm_num
    rw [p64] at this
    omega
  have hbeVal : beVal (toBytesBE 8 (i % (2 : Int) ^ 64).toNat) = (i % (2 : Int) ^ 64).toNat := by
    rw [beVal_toBytesBE]
    have h2e : (256 : Nat) ^ 8 = 2 ^ 64 := by norm_num
    rw [h2e, Nat.mod_eq_of_lt hmlt]
  rw [unpack_biplus_spec _ 0 true false hne (by rw [hlen8]; omega) (toBytesBE_lt 8 _),
    add_dec_places_zero, hbeVal, hlen8]
  by_cases hi : 0 ≤ i
  · have hms : i % (2 : Int) ^ 64 = i := by rw [p64] at *; omega
    have hsmall : 2 * (i % (2 : Int) ^ 64).toNat < 2 ^ (8 * 8) := by
      rw [p64n, hms, p63] at *
      omega
    rw [if_pos hsmall, hms]
    have htn : i.toNat = i.natAbs := by omega
    rw [intStr, if_neg (by omega), htn]
    rfl
  · have hms : i % (2 : Int) ^ 64 = i + 2 ^ 64 := by rw [p64] at *; omega
    have hbig : ¬(2 * (i % (2 : Int) ^ 64).toNat < 2 ^ (8 * 8)) := by
      rw [p64n, hms, p63, p64] at *
      omega
    rw [if_neg hbig]
    have heq : (((i % (2 : Int) ^ 64).toNat : Nat) : Int) - (((2 : Nat) ^ (8 * 8) : Nat) : Int) = i := by
      rw [p64n, hms, p64] at *
      omega
    rw [heq]
    rfl

theorem ch_pack_unpack (v : String) (d : Int) (p : Nat)
    (henc : ∀ c ∈ v.data, (cp037EncodeChar c).isSome)
    (hnull : ∀ c ∈ v.data, c ≠ nullChar)
    (hlast : ∀ c, v.data.getLast? = some c → isPySpace c = false) :
    reDecode v "ch" d p = some v := by
  obtain ⟨bs, hbs⟩ := cp037Encode_isSome henc
  obtain ⟨hdec, hlen⟩ := cp037Encode_spec hbs
  have hpack : pack v "ch" d p = .ok (bs ++ List.replicate (p - bs.length) 0) := by
    rw [pack_ch_eq, hbs]
  rw [reDecode_eq_of_pack hpack, unpack_ch_eq]
  have hdecode : cp037Decode (bs ++ List.replicate (p - bs.length) 0) =
      v.data ++ List.replicate (p - bs.length) nullChar := by
    rw [cp037Decode, List.map_append, List.map_replicate]
    have h0 : cp037DecodeByte 0 = nullChar := by decide
    rw [h0]
    congr 1
  rw [hdecode, List.filter_append]
  have hfv : v.data.filter (fun c => c ≠ nullChar) = v.data :=
    filter_eq_self_of_mem (fun c hc => by simpa using hnull c hc)
  rw [hfv, filter_ne_replicate, List.append_nil, pyRstrip_eq_self hlast]
  rfl

theorem pd_pack_unpack (t : String) (ht : t = "pd" ∨ t = "pd+") (neg : Bool)
    (ds : List Char) (p : Nat) (hp : 1 ≤ p) (hne : ds ≠ [])
    (hdig : ∀ c ∈ ds, c ∈ decChars) (hlen : ds.length ≤ p * 2 - 1) :
    reDecode ⟨(if neg then ['-'] else []) ++ ds⟩ t 0 p =
      some ⟨(if neg then ['-'] else []) ++ (List.replicate (p * 2 - 1 - ds.length) '0' ++ ds)⟩ ∧
    pyInt ((if neg then ['-'] else []) ++ (List.replicate (p * 2 - 1 - ds.length) '0' ++ ds)) =
      pyInt ((if neg then ['-'] else []) ++ ds) := by
  match ds, hne with
  | c :: cs, _ =>
      have hc : c ∈ decChars := hdig c (List.mem_cons_self _ _)
      have hsignchar :
          (if ((if neg then ['-'] else []) ++ c :: cs).head? = some '-' then 'd' else 'c') =
            (if neg then 'd' else 'c') := by
        cases neg
        · simp [(decChars_spec c hc).2.1]
        · simp
      have hfilter1 :
          ((if neg then ['-'] else []) ++ c :: cs).filter (fun x => x ≠ '.') =
            (if neg then ['-'] else []) ++ c :: cs := by
        apply filter_eq_self_of_mem
        intro x hx
        rw [List.mem_append] at hx
        rcases hx with hx | hx
        · cases neg <;> simp_all
        · simp [(decChars_spec x (hdig x hx)).2.2.2.1]
      have hfilter2 :
          ((if neg then ['-'] else []) ++ c :: cs).filter (fun x => x ≠ '-') = c :: cs := by
        rw [List.filter_append]
        have hl : (if neg then ['-'] else ([] : List Char)).filter (fun x => x ≠ '-') = [] := by
          cases neg <;> simp
        have hr : (c :: cs).filter (fun x => x ≠ '-') = c :: cs :=
          filter_eq_self_of_mem (fun x hx => by simp [(decChars_spec x (hdig x hx)).2.1])
        rw [hl, hr, List.nil_append]
      have hzfill : pyZfill (c :: cs) (p * 2 - 1) =
          List.replicate (p * 2 - 1 - (c :: cs).length) '0' ++ (c :: cs) :=
        pyZfill_digits hc _
      have hwlen : (List.replicate (p * 2 - 1 - (c :: cs).length) '0' ++ (c :: cs)).length =
          p * 2 - 1 := by
        rw [List.length_append, List.length_replicate]
        omega
      have hwhex : ∀ x ∈ (List.replicate (p * 2 - 1 - (c :: cs).length) '0' ++ (c :: cs)) ++
          [if neg then 'd' else 'c'], x ∈ lowHexChars := by
        intro x hx
        rw [List.mem_append] at hx
        rcases hx with hx | hx
        · rw [List.mem_append] at hx
          rcases hx with hx | hx
          · rw [List.eq_of_mem_replicate hx]; decide
          · exact (decChars_spec x (hdig x hx)).1
        · simp at hx
          rw [hx]
          cases neg <;> decide
      have heven2 : ((List.replicate (p * 2 - 1 - (c :: cs).length) '0' ++ (c :: cs)) ++
          [if neg then 'd' else 'c']).length % 2 = 0 := by
        rw [List.length_append, hwlen]
        simp only [List.length_singleton]
        omega
      obtain ⟨bytes, hbytes, hhexbytes, hblt, _⟩ := pyFromHex_valid _ hwhex heven2
      have hpack : pack ⟨(if neg then ['-'] else []) ++ c :: cs⟩ t 0 p = .ok bytes := by
        rw [pack_pd_eq _ t 0 p ht]
        show (match pyFromHex
              ((pyZfill ((((if neg then ['-'] else []) ++ c :: cs).filter
                  (fun x => x ≠ '.')).filter (fun x => x ≠ '-')) (p * 2 - 1)) ++
                [if ((if neg then ['-'] else []) ++ c :: cs).head? = some '-' then 'd' else 'c'])
            with
            | some packed => (Except.ok packed : Except PackErr (List Nat))
            | none => .error .valueError) = .ok bytes
        rw [hfilter1, hfilter2, hzfill, hsignchar, hbytes]
      refine ⟨?_, ?_⟩
      · rw [reDecode_eq_of_pack hpack, unpack_pd_eq _ t 0 true false ht, hhexbytes,
          pyDrop_concat, pyTake_concat]
        cases neg
        · rw [if_neg (by decide), add_dec_places_zero]
          rfl
        · rw [if_pos (Or.inl (by decide)), add_dec_places_zero]
          rfl
      · obtain ⟨val, hval⟩ := digitsVal?_isSome (c :: cs) (by simp) hdig
        have hzv : digitsVal? (List.replicate (p * 2 - 1 - (c :: cs).length) '0' ++ c :: cs) =
            some val := digitsVal?_zfill _ hval
        have hmem : ∀ x ∈ List.replicate (p * 2 - 1 - (c :: cs).length) '0' ++ c :: cs,
            x ∈ decChars := by
          intro x hx
          rw [List.mem_append] at hx
          rcases hx with hx | hx
          · rw [List.eq_of_mem_replicate hx]; decide
          · exact hdig x hx
        cases neg
        · show pyInt ([] ++ (List.replicate (p * 2 - 1 - (c :: cs).length) '0' ++ c :: cs)) =
            pyInt ([] ++ c :: cs)
          rw [List.nil_append, List.nil_append, pyInt_digits _ (by simp) hmem,
            pyInt_digits _ (by simp) hdig, hzv, hval]
        · show pyInt (['-'] ++ (List.replicate (p * 2 - 1 - (c :: cs).length) '0' ++ c :: cs)) =
            pyInt (['-'] ++ c :: cs)
          rw [List.singleton_append, List.singleton_append, pyInt, if_pos (by simp),
            List.drop_succ_cons, List.drop_zero, hzv, pyInt, if_pos (by simp),
            List.drop_succ_cons, List.drop_zero, hval]

theorem pack_strip_dots_pd (v : List Char) (t : String) (d : Int) (p : Nat)
    (ht : pyLower t = "pd" ∨ pyLower t = "pd+") (hv : v.head? ≠ some '.') :
    pack ⟨v⟩ t d p = pack ⟨v.filter (fun c => c ≠ '.')⟩ t d p := by
  rw [pack_pd_lower_eq ⟨v⟩ t d p ht, pack_pd_lower_eq ⟨v.filter (fun c => c ≠ '.')⟩ t d p ht]
  have harg :
      pyZfill ((v.filter (fun c => c ≠ '.')).filter (fun c => c ≠ '-')) (p * 2 - 1) ++
        [if v.head? = some '-' then 'd' else 'c'] =
      pyZfill (((v.filter (fun c => c ≠ '.')).filter (fun c => c ≠ '.')).filter
          (fun c => c ≠ '-')) (p * 2 - 1) ++
        [if (v.filter (fun c => c ≠ '.')).head? = some '-' then 'd' else 'c'] := by
    rw [filter_idem, head?_filter_dot v hv]
  show (match pyFromHex
        (pyZfill ((v.filter (fun c => c ≠ '.')).filter (fun c => c ≠ '-')) (p * 2 - 1) ++
          [if v.head? = some '-' then 'd' else 'c']) with
      | some packed => (Except.ok packed : Except PackErr (List Nat))
      | none => .error .valueError) =
    (match pyFromHex
        (pyZfill (((v.filter (fun c => c ≠ '.')).filter (fun c => c ≠ '.')).filter
            (fun c => c ≠ '-')) (p * 2 - 1) ++
          [if (v.filter (fun c => c ≠ '.')).head? = some '-' then 'd' else 'c']) with
      | some packed => (Except.ok packed : Except PackErr (List Nat))
      | none => .error .valueError)
  rw [harg]

theorem pack_strip_dots_zd (v : List Char) (t : String) (d : Int) (p : Nat)
    (ht : pyLower t = "zd" ∨ pyLower t = "zd+") (hv : v.head? ≠ some '.') :
    pack ⟨v⟩ t d p = pack ⟨v.filter (fun c => c ≠ '.')⟩ t d p := by
  rw [pack_zd_lower_eq ⟨v⟩ t d p ht, pack_zd_lower_eq ⟨v.filter (fun c => c ≠ '.')⟩ t d p ht]
  have harg :
      pyZfill ((v.filter (fun c => c ≠ '.')).filter (fun c => c ≠ '-')) (p - 1) ++
        [if v.head? = some '-' then '}' else '{'] =
      pyZfill (((v.filter (fun c => c ≠ '.')).filter (fun c => c ≠ '.')).filter
          (fun c => c ≠ '-')) (p - 1) ++
        [if (v.filter (fun c => c ≠ '.')).head? = some '-' then '}' else '{'] := by
    rw [filter_idem, head?_filter_dot v hv]
  show (match cp037Encode
        (pyZfill ((v.filter (fun c => c ≠ '.')).filter (fun c => c ≠ '-')) (p - 1) ++
          [if v.head? = some '-' then '}' else '{']) with
      | some r => (Except.ok r : Except PackErr (List Nat))
      | none => .error .encodeError) =
    (match cp037Encode
        (pyZfill (((v.filter (fun c => c ≠ '.')).filter (fun c => c ≠ '.')).filter
            (fun c => c ≠ '-')) (p - 1) ++
          [if (v.filter (fun c => c ≠ '.')).head? = some '-' then '}' else '{']) with
      | some r => (Except.ok r : Except PackErr (List Nat))
      | none => .error .encodeError)
  rw [harg]

/-! ### The claims -/

/-- C1 (counterexample): the round-trip invariant
`decode(encode(v, desc), desc) == normalize(v)` fails for the signed-zoned
format: encoding `"-12345"` with pad length 6 yields the cp037 bytes of
`"12345}"`, and decoding them back yields `"-123450"`, which denotes a
different number than `"-12345"`, so it is not a normalized form of the
input under any value-preserving normalization. -/
theorem C1_counterexample :
    reDecode "-12345" "zd+" 0 6 = some "-123450" ∧
    pack "-12345" "zd+" 0 6 = .ok [241, 242, 243, 244, 245, 208] ∧
    unpack [241, 242, 243, 244, 245, 208] "zd+" 0 true false = .ok "-123450" ∧
    pyInt ("-123450").data ≠ pyInt ("-12345").data := by
  decide

/-- C1 (amended): with zoned and signed-zoned additionally excluded (the
encoder appends a terminal zone character that the decoder does not fuse
back into the digits), and with decimal-place count 0, decode after encode
under the same descriptor returns a string denoting the same value:
zero-padded to the field width for packed and signed-packed, the identical
string for binary, signed-binary (in the 8-byte range) and text, and the
identical string for even-length lowercase hex. -/
theorem C1_roundtrip_amended :
    (∀ t, (t = "pd" ∨ t = "pd+") → ∀ (neg : Bool) (ds : List Char) (p : Nat),
        1 ≤ p → ds ≠ [] → (∀ c ∈ ds, c ∈ decChars) → ds.length ≤ p * 2 - 1 →
        reDecode ⟨(if neg then ['-'] else []) ++ ds⟩ t 0 p =
          some ⟨(if neg then ['-'] else []) ++
            (List.replicate (p * 2 - 1 - ds.length) '0' ++ ds)⟩ ∧
        pyInt ((if neg then ['-'] else []) ++
            (List.replicate (p * 2 - 1 - ds.length) '0' ++ ds)) =
          pyInt ((if neg then ['-'] else []) ++ ds)) ∧
    (∀ n : Nat, n < 2 ^ 64 → ∀ p, reDecode ⟨natStr n⟩ "bi" 0 p = some ⟨natStr n⟩) ∧
    (∀ i : Int, -(2 : Int) ^ 63 ≤ i → i < (2 : Int) ^ 63 → ∀ p,
        reDecode ⟨intStr i⟩ "bi+" 0 p = some ⟨intStr i⟩) ∧
    (∀ cs : List Char, (∀ c ∈ cs, c ∈ lowHexChars) → cs.length % 2 = 0 → ∀ (d : Int) (p : Nat),
        reDecode ⟨cs⟩ "hex" d p = some ⟨cs⟩) ∧
    (∀ (v : String) (d : Int) (p : Nat), (∀ c ∈ v.data, (cp037EncodeChar c).isSome) →
        (∀ c ∈ v.data, c ≠ nullChar) →
        (∀ c, v.data.getLast? = some c → isPySpace c = false) →
        reDecode v "ch" d p = some v) := by
  refine ⟨?_, ?_, ?_, ?_, ?_⟩
  · intro t ht neg ds p hp hne hdig hlen
    exact pd_pack_unpack t ht neg ds p hp hne hdig hlen
  · intro n hn p
    exact bi_pack_unpack n hn p
  · intro i hi1 hi2 p
    exact biplus_pack_unpack i hi1 hi2 p
  · intro cs hhex heven d p
    exact hex_pack_unpack cs hhex heven d p
  · intro v d p henc hnull hlast
    exact ch_pack_unpack v d p henc hnull hlast

/-- C1 (witness): the amended round trip evaluated at concrete inputs of
each covered format. -/
theorem C1_roundtrip_witness :
    reDecode "-123" "pd" 0 3 = some "-00123" ∧
    reDecode "4095" "bi" 0 0 = some "4095" ∧
    reDecode "-12345" "bi+" 0 0 = some "-12345" ∧
    reDecode "0aff" "hex" 0 0 = some "0aff" ∧
    reDecode "HELLO" "ch" 0 8 = some "HELLO" := by
  refine ⟨?_, ?_, ?_, ?_, ?_⟩
  · exact (C1_roundtrip_amended.1 "pd" (Or.inl rfl) true ['1', '2', '3'] 3 (by decide)
      (by decide) (by decide) (by decide)).1
  · exact C1_roundtrip_amended.2.1 4095 (by norm_num) 0
  · exact C1_roundtrip_amended.2.2.1 (-12345) (by norm_num) (by norm_num) 0
  · exact C1_roundtrip_amended.2.2.2.1 ['0', 'a', 'f', 'f'] (by decide) (by decide) 0 0
  · exact C1_roundtrip_amended.2.2.2.2 "HELLO" 0 8 (by decide) (by decide) (by decide)

/-- C2: calling either operation with an unrecognized format tag does not
return a recoverable `UnsupportedFormatError`; the source prints a message
and calls `exit()`, terminating the process (the `exited` outcome in this
embedding), contradicting the spec's stated error contract. -/
theorem C2_unsupported_exit_behavior :
    unpack [0] "xyz" 0 false false = .error .exited ∧
    pack "1" "xyz" 0 0 = .error .exited := by
  decide

/-- C3 (counterexample): for an 11-byte buffer whose hex rendering starts
with the full 20-character `HighestPositive` table, signed-binary decode
flips the sign even though the value is at most the all-high-bits-clear
threshold (the most significant byte is `0x7f`, high bit clear): the
truncated-prefix string comparison misclassifies it. -/
theorem C3_counterexample :
    beVal ([127] ++ List.replicate 9 255 ++ [0]) ≤
        2 ^ (8 * ([127] ++ List.replicate 9 255 ++ [0]).length - 1) - 1 ∧
    unpack ([127] ++ List.replicate 9 255 ++ [0]) "bi+" 0 false false ≠
      .ok ⟨natStr (beVal ([127] ++ List.replicate 9 255 ++ [0]))⟩ ∧
    unpack ([127] ++ List.replicate 9 255 ++ [0]) "bi+" 0 false false =
      .ok "-154742504910672534362390784" := by
  decide

/-- C3 (amended): for byte lengths 1 through 10 (the `HighestPositive`
table holds 20 hex digits, so the per-length prefix comparison is exact
only up to 10 bytes), signed-binary decode returns the big-endian value
unchanged when it is below `2^(8n-1)` (equivalently, the high bit of the
most significant byte is clear) and that value minus `2^(8n)` otherwise;
in particular the two 8-byte extremes round-trip through encode. -/
theorem C3_signed_decode_amended :
    (∀ bs : List Nat, bs ≠ [] → bs.length ≤ 10 → (∀ b ∈ bs, b < 256) →
        unpack bs "bi+" 0 false false =
          .ok ⟨if 2 * beVal bs < 2 ^ (8 * bs.length) then natStr (beVal bs)
               else intStr ((beVal bs : Int) - ((2 : Nat) ^ (8 * bs.length) : Nat))⟩) ∧
    reDecode "9223372036854775807" "bi+" 0 0 = some "9223372036854775807" ∧
    reDecode "-9223372036854775808" "bi+" 0 0 = some "-9223372036854775808" := by
  refine ⟨?_, ?_, ?_⟩
  · intro bs hne hlen hb
    exact unpack_biplus_spec bs 0 false false hne hlen hb
  · exact biplus_pack_unpack 9223372036854775807 (by norm_num) (by norm_num) 0
  · exact biplus_pack_unpack (-9223372036854775808) (by norm_num) (by norm_num) 0

/-- C3 (witness): the amended decode rule evaluated on the one-byte buffer
`0x80`, whose high bit is set. -/
theorem C3_signed_decode_witness :
    unpack [128] "bi+" 0 false false = .ok "-128" :=
  C3_signed_decode_amended.1 [128] (by decide) (by decide) (by decide)

/-- C4: packed-decimal encode of `"12345"` with pad length 3 produces
exactly the bytes `0x12 0x34 0x5c`, and of `"-12345"` the bytes
`0x12 0x34 0x5d`, under both the `pd` and `pd+` tags. -/
theorem C4_packed_encode :
    pack "12345" "pd" 0 3 = .ok [0x12, 0x34, 0x5c] ∧
    pack "-12345" "pd" 0 3 = .ok [0x12, 0x34, 0x5d] ∧
    pack "12345" "pd+" 0 3 = .ok [0x12, 0x34, 0x5c] ∧
    pack "-12345" "pd+" 0 3 = .ok [0x12, 0x34, 0x5d] := by
  decide

/-- C5 (counterexample): zoned encode of `"-12345"` with pad length 6 does
not have `"00123"` as its first five characters — the first five bytes are
the cp037 digits `"12345"` (`0xF1..0xF5`), not `0xF0 0xF0 0xF1 0xF2 0xF3`,
and no digit is fused into the sign byte. -/
theorem C5_counterexample :
    (pack "-12345" "zd+" 0 6).map (fun bs => bs.take 5) ≠ .ok [240, 240, 241, 242, 243] ∧
    (pack "-12345" "zd" 0 6).map (fun bs => bs.take 5) ≠ .ok [240, 240, 241, 242, 243] := by
  decide

/-- C5 (amended): zoned and signed-zoned encode of `"-12345"` with decimal
places 0 and pad length 6 produces the 6-byte buffer `0xF1 0xF2 0xF3 0xF4
0xF5 0xD0`: the last byte is the codepage's negative terminal zone
character `'}'` and the first five characters are the digits `"12345"`;
the final digit is kept whole, not fused into the sign byte. -/
theorem C5_zoned_encode_amended :
    pack "-12345" "zd+" 0 6 = .ok [241, 242, 243, 244, 245, 208] ∧
    pack "-12345" "zd" 0 6 = .ok [241, 242, 243, 244, 245, 208] ∧
    cp037DecodeByte 208 = '}' ∧
    cp037Decode [241, 242, 243, 244, 245] = ("12345").data := by
  decide

/-- C6: when the decimal-place count exceeds the digit-string length,
`add_dec_places` does not fail with a `DecimalPlacesOverflowError`; Python
slicing clamps the out-of-range index and an output string is produced
(`".12"` for `"12"` with 5 places, and decode returns it to the caller). -/
theorem C6_overflow_returns_string :
    add_dec_places ("12").data 5 = (".12").data ∧
    unpack [18, 52] "pd" 5 false false = .ok "1.23" := by
  decide

/-- C7: decoding any non-empty byte buffer with the hex format and then
encoding the resulting string with the hex format returns the original
buffer. -/
theorem C7_hex_roundtrip (bs : List Nat) (hne : bs ≠ []) (hb : ∀ b ∈ bs, b < 256) :
    ∃ s, unpack bs "hex" 0 false false = .ok s ∧ pack s "hex" 0 0 = .ok bs :=
  hex_unpack_pack bs hb

/-- C7 (witness): the hex round trip evaluated on the buffer `0xAB 0x00`. -/
theorem C7_hex_roundtrip_witness :
    ∃ s, unpack [171, 0] "hex" 0 false false = .ok s ∧ pack s "hex" 0 0 = .ok [171, 0] :=
  C7_hex_roundtrip [171, 0] (by decide) (by decide)

/-- C8: format-tag matching is case-insensitive in both operations — two
tags with the same lowercase form give identical results on every input. -/
theorem C8_case_insensitive (t1 t2 : String) (h : pyLower t1 = pyLower t2)
    (bs : List Nat) (d : Int) (r s : Bool) (v : String) (d2 : Int) (p : Nat) :
    unpack bs t1 d r s = unpack bs t2 d r s ∧ pack v t1 d2 p = pack v t2 d2 p := by
  constructor
  · unfold unpack
    rw [h]
  · unfold pack
    rw [h]

/-- C8 (witness): case-insensitivity evaluated for the tag pair
`"PD"`/`"pd"` on a concrete buffer and value. -/
theorem C8_case_insensitive_witness :
    unpack [18, 52, 92] "PD" 0 false false = unpack [18, 52, 92] "pd" 0 false false ∧
    pack "12345" "PD" 0 3 = pack "12345" "pd" 0 3 :=
  C8_case_insensitive "PD" "pd" (by decide) [18, 52, 92] 0 false false "12345" 0 3

/-- C9 (counterexample): a `'.'` in the value string is not stripped for
every format tag — the text format encodes it: `pack "1.2" "ch"` keeps the
dot as the cp037 byte `0x4B` and differs from `pack "12" "ch"`. -/
theorem C9_counterexample :
    pack "1.2" "ch" 0 0 ≠ pack "12" "ch" 0 0 ∧
    pack "1.2" "ch" 0 0 = .ok [241, 75, 242] := by
  decide

/-- C9 (amended): the encoder's output is independent of the decimal-place
count for every tag; and in the packed and zoned formats (the only ones
that strip), for a value not beginning with `'.'`, every `'.'` in the
value is stripped regardless of its position — encoding the value equals
encoding the value with all dots removed. -/
theorem C9_encoder_amended :
    (∀ (v t : String) (d1 d2 : Int) (p : Nat), pack v t d1 p = pack v t d2 p) ∧
    (∀ (v t : String) (d : Int) (p : Nat),
        (pyLower t = "pd" ∨ pyLower t = "pd+" ∨ pyLower t = "zd" ∨ pyLower t = "zd+") →
        v.data.head? ≠ some '.' →
        pack v t d p = pack ⟨v.data.filter (fun c => c ≠ '.')⟩ t d p) := by
  constructor
  · intro v t d1 d2 p
    rfl
  · intro v t d p ht hv
    rcases ht with h | h | h | h
    · exact pack_strip_dots_pd v.data t d p (Or.inl h) hv
    · exact pack_strip_dots_pd v.data t d p (Or.inr h) hv
    · exact pack_strip_dots_zd v.data t d p (Or.inl h) hv
    · exact pack_strip_dots_zd v.data t d p (Or.inr h) hv

/-- C9 (witness): decimal-place independence and dot stripping evaluated
at `"123.45"` under the `pd` tag. -/
theorem C9_encoder_witness :
    pack "123.45" "pd" 7 3 = pack "123.45" "pd" 0 3 ∧
    pack "123.45" "pd" 0 3 = pack "12345" "pd" 0 3 := by
  constructor
  · exact C9_encoder_amended.1 "123.45" "pd" 7 0 3
  · exact C9_encoder_amended.2 "123.45" "pd" 0 3 (Or.inl (by decide)) (by decide)

/-- C10 (counterexample): text encode does not return a buffer for every
string value — a character outside the cp037 codepage (here `'€'`) makes
`str.encode('cp037')` raise, modelled as the `encodeError` outcome, so no
buffer is produced. -/
theorem C10_counterexample :
    pack "€" "ch" 0 10 = .error .encodeError := by
  decide

/-- C10 (amended): for every cp037-encodable string value and every pad
length, text encode returns the encoded value (one byte per character)
followed by null-byte padding, with total length the maximum of the pad
length and the encoded byte length — it never truncates. -/
theorem C10_ch_padding (v : String) (d : Int) (p : Nat)
    (henc : ∀ c ∈ v.data, (cp037EncodeChar c).isSome) :
    ∃ enc, cp037Encode v.data = some enc ∧ enc.length = v.data.length ∧
      pack v "ch" d p = .ok (enc ++ List.replicate (p - enc.length) 0) ∧
      (enc ++ List.replicate (p - enc.length) 0).length = max p enc.length := by
  obtain ⟨bs, hbs⟩ := cp037Encode_isSome henc
  obtain ⟨_, hlen⟩ := cp037Encode_spec hbs
  refine ⟨bs, hbs, hlen, ?_, ?_⟩
  · rw [pack_ch_eq, hbs]
  · rw [List.length_append, List.length_replicate]
    omega

/-- C10 (witness): the padding shape evaluated at `"HELLO"` with pad
length 8. -/
theorem C10_ch_padding_witness :
    ∃ enc, cp037Encode ("HELLO").data = some enc ∧ enc.length = ("HELLO").data.length ∧
      pack "HELLO" "ch" 0 8 = .ok (enc ++ List.replicate (8 - enc.length) 0) ∧
      (enc ++ List.replicate (8 - enc.length) 0).length = max 8 enc.length :=
  C10_ch_padding "HELLO" 0 8 (by decide)

end Morph
